import Mathlib

/-!
Verification of the form-binding engine's path model, binding protocol, container
adapters, error lookup and buffer, as a shallow embedding of the Rust sources
(`core/lib/src/form/{name,from_form,from_form_field,context,form,buffer}.rs`).

Strings are modelled as `List Char`; byte positions as `Nat` character positions.
-/

namespace Rocket

/-- A single path key (`Key` in `name.rs`): one segment of a field name. -/
abbrev Key := List Char

/-- A field name (`Name` in `name.rs`): the raw character sequence of a path. -/
abbrev Name := List Char

/-- Index of the first character satisfying `p`, as Rust's `str::find` used in
`NameView::shift` (`name.rs` lines 289, 296, 300). -/
def findCh (p : Char → Bool) : List Char → Option Nat
  | [] => none
  | c :: rest => if p c then some 0 else (findCh p rest).map (· + 1)

/-- Number of characters consumed by one `NameView::shift`, translated from the
`match bytes.get(0)` in `name.rs` lines 287-304: empty or `=` consumes 0; `[`
scans the tail for the first `]` or `.` (through a `]`, up to a `.`, else all);
`.` scans the tail for the next `.` or `[`; anything else scans the whole suffix
for the next `.` or `[`. -/
def shiftLen (s : List Char) : Nat :=
  match s with
  | [] => 0
  | c :: rest =>
    if c = '=' then 0
    else if c = '[' then
      match findCh (fun x => x == ']' || x == '.') rest with
      | some j => if rest.getD j ' ' = ']' then j + 2 else j + 1
      | none => (c :: rest).length
    else if c = '.' then
      match findCh (fun x => x == '.' || x == '[') rest with
      | some j => j + 1
      | none => (c :: rest).length
    else
      match findCh (fun x => x == '.' || x == '[') (c :: rest) with
      | some j => j
      | none => (c :: rest).length

/-- Segment length according to the specification's grammar (spec §4.1), stated
from the spec's words: for a suffix beginning with `[`, the first `]` and the
first `.` are located independently and whichever occurs first decides the
consumed length (`]` inclusive, `.` exclusive). -/
def shiftLenSpec (s : List Char) : Nat :=
  match s with
  | [] => 0
  | c :: rest =>
    if c = '=' then 0
    else if c = '[' then
      match findCh (fun x => x == ']') rest, findCh (fun x => x == '.') rest with
      | some jr, some jd => if jr < jd then jr + 2 else jd + 1
      | some jr, none => jr + 2
      | none, some jd => jd + 1
      | none, none => (c :: rest).length
    else if c = '.' then
      match findCh (fun x => x == '.' || x == '[') rest with
      | some j => j + 1
      | none => (c :: rest).length
    else
      match findCh (fun x => x == '.' || x == '[') (c :: rest) with
      | some j => j
      | none => (c :: rest).length

/-- A cursor over a `Name` (`NameView` in `name.rs`): `(name, start, end)`. -/
structure NameView where
  name : Name
  start : Nat
  stop : Nat
deriving DecidableEq, Repr

/-- `NameView::shift` (`name.rs` lines 282-312): the new window starts at the old
end and extends by the segment length of the remaining suffix. -/
def NameView.shift (v : NameView) : NameView :=
  { name := v.name, start := v.stop, stop := v.stop + shiftLen (v.name.drop v.stop) }

/-- `NameView::new`: a fresh cursor, shifted once (`name.rs` lines 260-264). -/
def NameView.new (n : Name) : NameView :=
  NameView.shift { name := n, start := 0, stop := 0 }

/-- `NameView::is_terminal`: the cursor start has reached the end of the name. -/
def NameView.isTerminal (v : NameView) : Bool :=
  v.start == v.name.length

/-- `NameView::as_name`: the prefix of the name consumed through the cursor. -/
def NameView.asName (v : NameView) : Name :=
  v.name.take v.stop

/-- `NameView::key_lossy` (`name.rs` lines 315-324): strips a leading `.`, or a
wrapping `[` ... `]`, from the current segment; allows the empty key. -/
def NameView.keyLossy (v : NameView) : Key :=
  let view := (v.name.take v.stop).drop v.start
  match view with
  | '.' :: tail => tail
  | '[' :: tail => if view.getLast? = some ']' then tail.dropLast else view
  | _ => view

/-- `NameView::key` (`name.rs` lines 327-334): `none` for an empty lossy key. -/
def NameView.key (v : NameView) : Option Key :=
  let lossy := v.keyLossy
  if lossy.isEmpty then none else some lossy

/-- Shared shape of the `Keys` and `Prefixes` iterators of `name.rs` lines 21-59:
repeatedly observe a non-terminal cursor and shift it.  The Rust iterators are
unbounded; the fuel `name.length + 1` is shown below to reach the terminal state
for every `=`-free name. -/
def viewIter {α : Type} (f : NameView → α) : Nat → NameView → List α
  | 0, _ => []
  | fuel + 1, v => if v.isTerminal then [] else f v :: viewIter f fuel v.shift

/-- `Name::keys` (`name.rs` lines 21-39). -/
def Name.keys (n : Name) : List Key :=
  viewIter NameView.keyLossy (n.length + 1) (NameView.new n)

/-- `Name::prefixes` (`name.rs` lines 41-59). -/
def Name.prefixes (n : Name) : List Name :=
  viewIter NameView.asName (n.length + 1) (NameView.new n)

/-- `PartialEq for Name` (`name.rs` lines 102-106): two names are equal exactly
when their segmented key sequences are equal. -/
def nameEq (s₁ s₂ : Name) : Prop :=
  Name.keys s₁ = Name.keys s₂

instance (s₁ s₂ : Name) : Decidable (nameEq s₁ s₂) := by
  unfold nameEq
  infer_instance

/-- `Hash for Name` (`name.rs` lines 146-150): the hash state is obtained by
folding each key of the segmented key sequence, for an arbitrary hasher. -/
def nameHash {H : Type} (step : H → Key → H) (state : H) (n : Name) : H :=
  (Name.keys n).foldl step state

/-- The error taxonomy (spec §7).  Modelled from the spec: `error.rs` is absent
from `src/`; only the kinds named by the spec are represented. -/
inductive ErrorKind where
  | missing
  | duplicate
  | unexpected
  | validationFailed
  | tooLarge
  | ioFailure
  | incorrectKeyMarker
  | missingIndex
deriving DecidableEq, Repr

/-- A single structured error (spec §3).  Modelled from the spec: `error.rs` is
absent from `src/`; an `Error` carries an optional attaching `Name`, an
`ErrorKind`, and an optional captured raw value. -/
structure Error where
  name : Option Name
  value : Option (List Char)
  kind : ErrorKind
deriving DecidableEq, Repr

/-- Parsing options (`options.rs` lines 22-31). -/
structure Options where
  strict : Bool
deriving DecidableEq, Repr

def Options.Lenient : Options := { strict := false }

def Options.Strict : Options := { strict := true }

/-- A leaf datum (`ValueField` in the spec's §3): a cursor into its name plus a
string value. -/
structure ValueField where
  name : NameView
  value : List Char
deriving DecidableEq, Repr

/-- Modelled from the spec: `field.rs` is absent from `src/`.  `ValueField::shift`
hands the field to a sub-context with its name cursor advanced one segment
(§4.3 "shifted push"). -/
def ValueField.shift (f : ValueField) : ValueField :=
  { f with name := f.name.shift }

/-- The `FromForm` binding protocol (`from_form.rs` lines 11-26), reified as a
record so the container adapters can be stated generically over any bindable
type `T` (`push_data` is the same shape as `push_value` and is omitted). -/
structure FormImpl (T : Type) where
  Ctx : Type
  init : Options → Ctx
  pushValue : Ctx → ValueField → Ctx
  finalize : Ctx → Except (List Error) T

/-- `VecContext` (`from_form.rs` lines 29-35). -/
structure VecContext (T : Type) (F : FormImpl T) where
  opts : Options
  lastKey : Option Key
  current : Option F.Ctx
  errors : List Error
  items : List T

/-- `Vec::init` (`from_form.rs` lines 69-77). -/
def vecInit {T : Type} (F : FormImpl T) (opts : Options) : VecContext T F :=
  { opts := opts, lastKey := none, current := none, errors := [], items := [] }

/-- `VecContext::shift` (`from_form.rs` lines 38-45): finalize the running
sub-context, appending its success to `items` or its errors to `errors`. -/
def vecShift {T : Type} (F : FormImpl T) (c : VecContext T F) : VecContext T F :=
  match c.current with
  | none => c
  | some cur =>
    match F.finalize cur with
    | .ok v => { c with current := none, items := c.items ++ [v] }
    | .error e => { c with current := none, errors := c.errors ++ e }

/-- The `keys_match` test of `VecContext::context` (`from_form.rs` lines 50-53):
true exactly when both the remembered and the incoming first key are present
and equal. -/
def keysMatch (last this : Option Key) : Bool :=
  match last, this with
  | some k1, some k2 => k1 == k2
  | _, _ => false

/-- `VecContext::context` (`from_form.rs` lines 47-62): on a key mismatch,
finalize the running sub-context and start a fresh one; always remember the
incoming key. -/
def vecContext {T : Type} (F : FormImpl T) (c : VecContext T F) (name : NameView) :
    VecContext T F :=
  let c1 :=
    if keysMatch c.lastKey name.key then c
    else
      let cs := vecShift F c
      { cs with current := some (F.init c.opts) }
  { c1 with lastKey := name.key }

/-- `Vec::push_value` (`from_form.rs` lines 79-81): route the shifted field into
the sub-context selected by `vecContext`.  The source unwraps `current` with
`expect`: after a mismatch `current` is `some` by construction, and on a match
the code's invariant (a remembered key implies a live sub-context) makes the
`none` case unreachable; the embedding leaves the context unchanged there. -/
def vecPushValue {T : Type} (F : FormImpl T) (c : VecContext T F)
    (field : ValueField) : VecContext T F :=
  let c1 := vecContext F c field.name
  match c1.current with
  | some cur => { c1 with current := some (F.pushValue cur field.shift) }
  | none => c1

/-- `Vec::finalize` (`from_form.rs` lines 87-93). -/
def vecFinalize {T : Type} (F : FormImpl T) (c : VecContext T F) :
    Except (List Error) (List T) :=
  let c1 := vecShift F c
  if c1.errors.isEmpty then .ok c1.items else .error c1.errors

/-- `Option<T>::finalize` (`from_form.rs` lines 337-343). -/
def optionFinalize {T : Type} (F : FormImpl T) (c : F.Ctx) :
    Except (List Error) (Option T) :=
  match F.finalize c with
  | .ok v => .ok (some v)
  | .error _ => .ok none

/-- `Result<'v, T>::finalize` (`from_form.rs` lines 361-366). -/
def resultFinalize {T : Type} (F : FormImpl T) (c : F.Ctx) :
    Except (List Error) (Except (List Error) T) :=
  match F.finalize c with
  | .ok v => .ok (.ok v)
  | .error e => .ok (.error e)

/-- A scalar leaf parser (`FromFormField`, `from_form_field.rs` lines 20-31):
`from_value` plus the optional declared default (`from_data` is the same shape
and is omitted). -/
structure FieldImpl (T : Type) where
  fromValue : ValueField → Except (List Error) T
  default : Option T := none

/-- `FromFieldContext` (`from_form_field.rs` lines 33-40). -/
structure FromFieldContext (T : Type) where
  fieldName : Option NameView
  fieldValue : Option (List Char)
  opts : Options
  value : Option (Except (List Error) T)
  pushes : Nat

/-- `T::init` for the leaf adapter (`from_form_field.rs` lines 65-73). -/
def leafInit {T : Type} (opts : Options) : FromFieldContext T :=
  { fieldName := none, fieldValue := none, opts := opts, value := none, pushes := 0 }

/-- The `is_unexpected` test of `FromFieldContext::push` (`from_form_field.rs`
lines 49-51): the last recorded error's kind is `Unexpected`. -/
def isUnexpectedLast (es : List Error) : Bool :=
  match es.getLast? with
  | some e => e.kind == .unexpected
  | none => false

/-- `FromFieldContext::push` (`from_form_field.rs` lines 48-58): remember the
field name; in lenient mode swallow an error whose last kind is `Unexpected`;
otherwise record the result. -/
def leafPush {T : Type} (c : FromFieldContext T) (name : NameView)
    (result : Except (List Error) T) : FromFieldContext T :=
  let c1 := { c with fieldName := some name }
  match result with
  | .error e =>
    if c.opts.strict = false ∧ isUnexpectedLast e = true then c1
    else { c1 with value := some (.error e) }
  | .ok v => { c1 with value := some (.ok v) }

/-- `push_value` for the leaf adapter (`from_form_field.rs` lines 75-80):
`can_push` increments the push counter and admits the push only when no result
is recorded yet. -/
def leafPushValue {T : Type} (L : FieldImpl T) (c : FromFieldContext T)
    (field : ValueField) : FromFieldContext T :=
  let c1 := { c with pushes := c.pushes + 1 }
  if c.value.isSome then c1
  else leafPush { c1 with fieldValue := some field.value } field.name (L.fromValue field)

/-- `Errors::set_name`, modelled from the spec (§4.4): `error.rs` is absent from
`src/`; `set_name` backfills a missing attaching path on each error. -/
def setName (n : Name) (es : List Error) : List Error :=
  es.map fun e => if e.name.isNone then { e with name := some n } else e

/-- `Errors::set_value`, modelled from the spec (§3): backfills the captured raw
value on each error lacking one. -/
def setValue (v : List Char) (es : List Error) : List Error :=
  es.map fun e => if e.value.isNone then { e with value := some v } else e

/-- The error post-processing of the leaf `finalize` (`from_form_field.rs` lines
99-107): backfill the remembered field name and value.  The source also calls
`with_context(type_name::<T>())`, which only attaches diagnostic context and is
modelled as the identity (the spec does not describe it). -/
def finishErrors {T : Type} (c : FromFieldContext T) (es : List Error) :
    Except (List Error) T :=
  let es1 :=
    match c.fieldName with
    | some nv => setName nv.asName es
    | none => es
  let es2 :=
    match c.fieldValue with
    | some v => setValue v es1
    | none => es1
  .error es2

/-- `finalize` for the leaf adapter (`from_form_field.rs` lines 88-108). -/
def leafFinalize {T : Type} (L : FieldImpl T) (c : FromFieldContext T) :
    Except (List Error) T :=
  match c.value with
  | some (.ok v) =>
    if c.opts.strict = false ∨ c.pushes ≤ 1 then .ok v
    else finishErrors c [{ name := none, value := none, kind := .duplicate }]
  | some (.error e) => finishErrors c e
  | none =>
    match L.default with
    | some d => .ok d
    | none => finishErrors c [{ name := none, value := none, kind := .missing }]

/-- The error store of `Context` (`context.rs` lines 7-13): an insertion-ordered
map from the attaching name to its errors, plus the errors with no name. -/
structure FormCtx where
  errors : List (Name × List Error)
  otherErrors : List Error

/-- Lookup in the error map: the `IndexMap` of `context.rs` is keyed by
key-sequence equivalence (`indexmap::Equivalent` in `name.rs` lines 516-520),
not raw-text equality. -/
def lookupErrors (m : List (Name × List Error)) (n : Name) : Option (List Error) :=
  (m.find? (fun p => Name.keys p.1 == Name.keys n)).map (fun p => p.2)

/-- `Context::errors` (`context.rs` lines 48-56): walk the query's own prefix
chain and collect the errors stored under each prefix. -/
def FormCtx.errorsFor (c : FormCtx) (n : Name) : List Error :=
  ((Name.prefixes n).filterMap (lookupErrors c.errors)).flatten

/-- `Context::has_error` (`context.rs` lines 44-46). -/
def FormCtx.hasError (c : FormCtx) (n : Name) : Bool :=
  !(c.errorsFor n).isEmpty

/-- The content-type classification used by `Form::from_data`.  Modelled from
the spec: the `http` content-type helpers (`is_form`, `is_form_data`,
`param("boundary")`) are absent from `src/`; a content type is summarized by
the two classification flags and an optional boundary parameter. -/
structure ContentType where
  isForm : Bool
  isFormData : Bool
  boundary : Option (List Char)
deriving DecidableEq, Repr

/-- The data-guard outcome (`from_data.rs`): success, failure, or forward. -/
inductive Outcome (α : Type) where
  | success : α → Outcome α
  | failure : List Error → Outcome α
  | forward : Outcome α
deriving DecidableEq, Repr

/-- Modelled from the spec (§4.5): the missing-boundary condition of
`Storage::multipart` surfaces as a transport-level error. -/
def noBoundaryError : Error :=
  { name := none, value := none, kind := .ioFailure }

/-- `FromData for Form<T>::from_data` (`form.rs` lines 228-249) together with the
boundary check of `Storage::multipart` (`form.rs` lines 212-226).  The body
reads and parse outcomes of the two branches are abstracted as the `Except`
parameters `stringRes` / `multipartRes`: either yields `Failure` on error. -/
def formFromData {α : Type} (ct : Option ContentType)
    (stringRes : Except (List Error) α) (multipartRes : Except (List Error) α) :
    Outcome α :=
  match ct with
  | none => .forward
  | some c =>
    if c.isForm then
      match stringRes with
      | .ok v => .success v
      | .error e => .failure e
    else if c.isFormData then
      match c.boundary with
      | none => .failure [noBoundaryError]
      | some _ =>
        match multipartRes with
        | .ok v => .success v
        | .error e => .failure e
    else .forward

/-- `Buffer` (`buffer.rs` lines 5-8): the append-only list of stored strings.
The returned "references" are modelled by returning the stored contents. -/
abbrev Buffer := List (List Char)

/-- `Buffer::push_one` (`buffer.rs` lines 18-47): append one string, hand back
its contents. -/
def Buffer.push_one (buf : Buffer) (s : List Char) : Buffer × List Char :=
  (buf ++ [s], s)

/-- `Buffer::push_split` (`buffer.rs` lines 49-54): push one string and return
the two slices around `len`. -/
def Buffer.push_split (buf : Buffer) (s : List Char) (len : Nat) :
    Buffer × (List Char × List Char) :=
  let (buf1, r) := Buffer.push_one buf s
  (buf1, (r.take len, r.drop len))

/-- `Buffer::push_two` (`buffer.rs` lines 56-62): concatenate and split back. -/
def Buffer.push_two (buf : Buffer) (a b : List Char) :
    Buffer × (List Char × List Char) :=
  Buffer.push_split buf (a ++ b) a.length

/-- A trivial bindable type for exercising the sequence adapter: its context
collects the pushed fields and always finalizes successfully. -/
def collectF : FormImpl (List ValueField) :=
  { Ctx := List ValueField
    init := fun _ => []
    pushValue := fun c f => c ++ [f]
    finalize := fun c => .ok c }

/-- A leaf whose parser always succeeds with the field's value. -/
def strLeaf : FieldImpl (List Char) :=
  { fromValue := fun f => .ok f.value }

/-- A leaf whose parser always fails with a `ValidationFailed` error capturing
the offending value. -/
def valErrLeaf : FieldImpl (List Char) :=
  { fromValue := fun f =>
      .error [{ name := none, value := some f.value, kind := .validationFailed }] }

/-- A leaf whose parser always fails with `Unexpected`. -/
def unexpLeaf : FieldImpl (List Char) :=
  { fromValue := fun f =>
      .error [{ name := none, value := some f.value, kind := .unexpected }] }

/-- Shorthand for building a concrete `ValueField` from string literals. -/
def vf (n v : String) : ValueField :=
  { name := NameView.new n.data, value := v.data }

/-- A concrete error attached under the name `"a.b"`, for exercising the
context's prefix lookup. -/
def abError : Error :=
  { name := some ("a.b".data), value := none, kind := .validationFailed }

/-- The concrete error store holding `abError` under the name `"a.b"`. -/
def abCtx : FormCtx :=
  { errors := [("a.b".data, [abError])], otherErrors := [] }

theorem findCh_or (p q : Char → Bool) (l : List Char) :
    findCh (fun x => p x || q x) l =
      match findCh p l, findCh q l with
      | some i, some j => some (min i j)
      | some i, none => some i
      | none, some j => some j
      | none, none => none := by
  induction l with
  | nil => rfl
  | cons c xs ih =>
    by_cases hp : p c
    · cases hq : findCh q (c :: xs) with
      | none => simp [findCh, hp]
      | some j =>
        simp only [findCh, hp, Bool.true_or, if_pos, if_true]
        by_cases hqc : q c
        · simp [findCh, hqc] at hq
          simp [findCh, hp, ← hq]
        · simp [findCh, hqc] at hq
          obtain ⟨j0, hj0, rfl⟩ := hq
          simp [findCh, hp, hqc, hj0, Nat.min_eq_left]
    · by_cases hq : q c
      · simp only [findCh, hp, hq, Bool.or_true, if_true]
        cases hlp : findCh p xs with
        | none => simp [findCh, hp, hq, hlp]
        | some i => simp [findCh, hp, hq, hlp, Nat.min_eq_right]
      · simp only [findCh, hp, hq, Bool.or_false, if_false]
        rw [ih]
        cases hlp : findCh p xs <;> cases hlq : findCh q xs <;>
          simp [findCh, hp, hq, hlp, hlq, Nat.succ_min_succ]

theorem findCh_lt_length {p : Char → Bool} {l : List Char} {i : Nat}
    (h : findCh p l = some i) : i < l.length ∧ p (l.getD i ' ') = true := by
  induction l generalizing i with
  | nil => simp [findCh] at h
  | cons c xs ih =>
    by_cases hp : p c
    · simp [findCh, hp] at h
      subst h
      simpa using hp
    · simp [findCh, hp] at h
      obtain ⟨j, hj, rfl⟩ := h
      obtain ⟨h1, h2⟩ := ih hj
      refine ⟨by simp only [List.length_cons]; omega, by simpa using h2⟩

theorem shiftLen_eq_spec (s : List Char) : shiftLen s = shiftLenSpec s := by
  match s with
  | [] => rfl
  | c :: rest =>
    unfold shiftLen shiftLenSpec
    by_cases h1 : c = '='
    · simp [h1]
    by_cases h2 : c = '['
    · simp only [h1, if_false, h2, if_true]
      rw [findCh_or (fun x => x == ']') (fun x => x == '.') rest]
      cases hr : findCh (fun x => x == ']') rest with
      | none =>
        cases hd : findCh (fun x => x == '.') rest with
        | none => simp
        | some jd =>
          have hdc := (findCh_lt_length hd).2
          simp only [beq_iff_eq] at hdc
          rw [List.getD_eq_getElem?_getD] at hdc
          simp [hdc]
      | some jr =>
        have hrc := (findCh_lt_length hr).2
        simp only [beq_iff_eq] at hrc
        rw [List.getD_eq_getElem?_getD] at hrc
        cases hd : findCh (fun x => x == '.') rest with
        | none => simp [hrc]
        | some jd =>
          have hdc := (findCh_lt_length hd).2
          simp only [beq_iff_eq] at hdc
          rw [List.getD_eq_getElem?_getD] at hdc
          have hne : jr ≠ jd := fun h => by
            rw [h] at hrc; rw [hrc] at hdc; exact absurd hdc (by decide)
          rcases Nat.lt_trichotomy jr jd with hlt | heq | hgt
          · simp [Nat.min_eq_left (Nat.le_of_lt hlt), hrc, hlt]
          · exact absurd heq hne
          · have hnlt : ¬ (jr < jd) := by omega
            simp [Nat.min_eq_right (Nat.le_of_lt hgt), hdc, hnlt]
    · simp [h1, h2]

theorem shiftLen_bracket (rest : List Char) :
    shiftLen ('[' :: rest) =
      match findCh (fun x => x == ']' || x == '.') rest with
      | some j => if rest.getD j ' ' = ']' then j + 2 else j + 1
      | none => rest.length + 1 := rfl

theorem shiftLen_dot (rest : List Char) :
    shiftLen ('.' :: rest) =
      match findCh (fun x => x == '.' || x == '[') rest with
      | some j => j + 1
      | none => rest.length + 1 := rfl

theorem shiftLen_other (c : Char) (rest : List Char)
    (h1 : c ≠ '=') (h2 : c ≠ '[') (h3 : c ≠ '.') :
    shiftLen (c :: rest) =
      match findCh (fun x => x == '.' || x == '[') (c :: rest) with
      | some j => j
      | none => rest.length + 1 := by
  unfold shiftLen
  simp [h1, h2, h3]

theorem shiftLen_bracket_some (rest : List Char) (j : Nat)
    (h : findCh (fun x => x == ']' || x == '.') rest = some j) :
    shiftLen ('[' :: rest) = if rest.getD j ' ' = ']' then j + 2 else j + 1 := by
  rw [shiftLen_bracket, h]

theorem shiftLen_bracket_none (rest : List Char)
    (h : findCh (fun x => x == ']' || x == '.') rest = none) :
    shiftLen ('[' :: rest) = rest.length + 1 := by
  rw [shiftLen_bracket, h]

theorem shiftLen_dot_some (rest : List Char) (j : Nat)
    (h : findCh (fun x => x == '.' || x == '[') rest = some j) :
    shiftLen ('.' :: rest) = j + 1 := by
  rw [shiftLen_dot, h]

theorem shiftLen_dot_none (rest : List Char)
    (h : findCh (fun x => x == '.' || x == '[') rest = none) :
    shiftLen ('.' :: rest) = rest.length + 1 := by
  rw [shiftLen_dot, h]

theorem shiftLen_other_some (c : Char) (rest : List Char) (j : Nat)
    (h1 : c ≠ '=') (h2 : c ≠ '[') (h3 : c ≠ '.')
    (h : findCh (fun x => x == '.' || x == '[') (c :: rest) = some j) :
    shiftLen (c :: rest) = j := by
  rw [shiftLen_other c rest h1 h2 h3, h]

theorem shiftLen_other_none (c : Char) (rest : List Char)
    (h1 : c ≠ '=') (h2 : c ≠ '[') (h3 : c ≠ '.')
    (h : findCh (fun x => x == '.' || x == '[') (c :: rest) = none) :
    shiftLen (c :: rest) = rest.length + 1 := by
  rw [shiftLen_other c rest h1 h2 h3, h]

theorem shiftLen_le (s : List Char) : shiftLen s ≤ s.length := by
  match s with
  | [] => exact Nat.le_refl 0
  | c :: rest =>
    by_cases h1 : c = '='
    · subst h1; simp [shiftLen]
    by_cases h2 : c = '['
    · subst h2
      cases hr : findCh (fun x => x == ']' || x == '.') rest with
      | none => rw [shiftLen_bracket_none rest hr]; simp
      | some j =>
        have hj := (findCh_lt_length hr).1
        rw [shiftLen_bracket_some rest j hr]
        by_cases hc : rest.getD j ' ' = ']'
        · rw [if_pos hc]; simp only [List.length_cons]; omega
        · rw [if_neg hc]; simp only [List.length_cons]; omega
    by_cases h3 : c = '.'
    · subst h3
      cases hd : findCh (fun x => x == '.' || x == '[') rest with
      | none => rw [shiftLen_dot_none rest hd]; simp
      | some j =>
        have hj := (findCh_lt_length hd).1
        rw [shiftLen_dot_some rest j hd]
        simp only [List.length_cons]
        omega
    · cases ho : findCh (fun x => x == '.' || x == '[') (c :: rest) with
      | none => rw [shiftLen_other_none c rest h1 h2 h3 ho]; simp
      | some j =>
        have hj := (findCh_lt_length ho).1
        rw [shiftLen_other_some c rest j h1 h2 h3 ho]
        omega

theorem shiftLen_pos (c : Char) (rest : List Char) (h : c ≠ '=') :
    0 < shiftLen (c :: rest) := by
  by_cases h2 : c = '['
  · subst h2
    cases hr : findCh (fun x => x == ']' || x == '.') rest with
    | none => rw [shiftLen_bracket_none rest hr]; omega
    | some j =>
      rw [shiftLen_bracket_some rest j hr]
      by_cases hc : rest.getD j ' ' = ']'
      · rw [if_pos hc]; omega
      · rw [if_neg hc]; omega
  by_cases h3 : c = '.'
  · subst h3
    cases hd : findCh (fun x => x == '.' || x == '[') rest with
    | none => rw [shiftLen_dot_none rest hd]; omega
    | some j => rw [shiftLen_dot_some rest j hd]; omega
  · cases ho : findCh (fun x => x == '.' || x == '[') (c :: rest) with
    | none => rw [shiftLen_other_none c rest h h2 h3 ho]; omega
    | some j =>
      rw [shiftLen_other_some c rest j h h2 h3 ho]
      have hcc : ((fun x => x == '.' || x == '[') c) = false := by
        simp [h2, h3]
      simp only [findCh, hcc, Bool.false_eq_true, if_false] at ho
      obtain ⟨j0, _, hj0⟩ := Option.map_eq_some'.mp ho
      omega

/-- C1: `NameView::shift` advances the cursor by exactly one logical segment:
the new window starts where the old one ended and its length is given by the
specification's grammar on the remaining suffix — empty or `=`-initial suffixes
consume 0 characters; `[`-initial suffixes consume through the first `]` when it
occurs before any `.`, up to (not including) a `.` occurring first, or the whole
rest; `.`-initial suffixes consume up to the next `[` or `.` found from offset 1
or the whole rest; any other suffix consumes up to the next `[` or `.` or the
whole rest. -/
theorem shift_advances_one_segment (v : NameView) :
    (v.shift).name = v.name ∧ (v.shift).start = v.stop ∧
    (v.shift).stop = v.stop + shiftLenSpec (v.name.drop v.stop) := by
  refine ⟨rfl, rfl, ?_⟩
  show v.stop + shiftLen (v.name.drop v.stop) = _
  rw [shiftLen_eq_spec]

theorem shift_invariant (v : NameView) (hss : v.start ≤ v.stop)
    (hsl : v.stop ≤ v.name.length) :
    v.start ≤ (v.shift).start ∧ v.stop ≤ (v.shift).stop ∧
    (v.shift).start ≤ (v.shift).stop ∧ (v.shift).stop ≤ v.name.length := by
  refine ⟨hss, Nat.le_add_right _ _, Nat.le_add_right _ _, ?_⟩
  have h := shiftLen_le (v.name.drop v.stop)
  rw [List.length_drop] at h
  show v.stop + shiftLen (v.name.drop v.stop) ≤ _
  omega

theorem shift_progress (v : NameView) (hne : '=' ∉ v.name)
    (hlt : v.stop < v.name.length) :
    v.stop < (v.shift).stop := by
  show v.stop < v.stop + shiftLen (v.name.drop v.stop)
  cases hd : v.name.drop v.stop with
  | nil =>
    have := congrArg List.length hd
    rw [List.length_drop] at this
    simp at this
    omega
  | cons c rest =>
    have hc : c ∈ v.name := by
      have : c ∈ v.name.drop v.stop := by rw [hd]; exact List.mem_cons_self c rest
      exact List.drop_subset _ _ this
    have hcne : c ≠ '=' := fun h => hne (h ▸ hc)
    have := shiftLen_pos c rest hcne
    omega

/-- Once the cursor window has collapsed at the end of the name, shifting keeps
it there. -/
theorem shift_fixed_at_end (v : NameView) (h : v.stop = v.name.length) :
    v.shift = { name := v.name, start := v.name.length, stop := v.name.length } := by
  unfold NameView.shift
  rw [h, List.drop_length]
  simp [shiftLen]

theorem terminal_reached (name : Name) (hne : '=' ∉ name) :
    ∀ k (v : NameView), v.name = name → v.stop ≤ name.length →
      name.length - v.stop ≤ k → (NameView.shift^[k + 1] v).isTerminal = true := by
  intro k
  induction k with
  | zero =>
    intro v hn hsl hk
    subst hn
    have hstop : v.stop = v.name.length := by omega
    rw [Function.iterate_one, shift_fixed_at_end v hstop]
    simp [NameView.isTerminal]
  | succ k ih =>
    intro v hn hsl hk
    subst hn
    rw [Function.iterate_succ_apply]
    by_cases hstop : v.stop = v.name.length
    · rw [shift_fixed_at_end v hstop]
      exact ih _ rfl (Nat.le_refl _) (by simp)
    · have hlt : v.stop < v.name.length := by omega
      have hprog : v.stop < (v.shift).stop := shift_progress v hne hlt
      have hds : (v.shift).stop = v.stop + shiftLen (v.name.drop v.stop) := rfl
      have h := shiftLen_le (v.name.drop v.stop)
      rw [List.length_drop] at h
      exact ih (v.shift) rfl (by omega) (by omega)

theorem viewIter_length_le {α : Type} (f : NameView → α) (name : Name)
    (hne : '=' ∉ name) :
    ∀ (fuel : Nat) (v : NameView), v.name = name → v.start ≤ v.stop →
      v.stop ≤ name.length → (v.start < v.stop ∨ v.start = name.length) →
      (viewIter f fuel v).length ≤ name.length - v.start := by
  intro fuel
  induction fuel with
  | zero => intro v _ _ _ _; simp [viewIter]
  | succ fuel ih =>
    intro v hn hss hsl hd
    by_cases ht : v.isTerminal
    · simp [viewIter, ht]
    · have hterm : ¬ v.start = v.name.length := by
        simpa [NameView.isTerminal] using ht
      rw [hn] at hterm
      have hss' : v.start < v.stop := by
        rcases hd with h | h
        · exact h
        · exact absurd h hterm
      simp only [viewIter, ht, Bool.false_eq_true, if_false, List.length_cons]
      have hinv := shift_invariant v hss (by rw [hn]; exact hsl)
      have harg : (v.shift).start < (v.shift).stop ∨ (v.shift).start = name.length := by
        by_cases hstop : v.stop = name.length
        · right; exact hstop
        · left
          exact shift_progress v (by rw [hn]; exact hne) (by rw [hn]; omega)
      have hstop_le : (v.shift).stop ≤ name.length := by
        have h2 := hinv.2.2.2
        rwa [hn] at h2
      have hrec := ih (v.shift) hn hinv.2.2.1 hstop_le harg
      have hstart : (v.shift).start = v.stop := rfl
      rw [hstart] at hrec
      omega

/-- C2 counterexample: `Name::new("=")` never reaches the terminal cursor state
no matter how many times `shift` is applied, so the `keys()`/`prefixes()`
iterators of the name `"="` are infinite rather than bounded by its length. -/
theorem shift_eq_name_never_terminal :
    ¬ ∃ k, (NameView.shift^[k] (NameView.new ['='])).isTerminal = true := by
  rintro ⟨k, hk⟩
  have hnew : NameView.new ['='] = { name := ['='], start := 0, stop := 0 } := by
    show NameView.shift { name := ['='], start := 0, stop := 0 } = _
    rw [NameView.shift]
    simp [shiftLen]
  have hfix : NameView.shift { name := ['='], start := 0, stop := 0 } =
      { name := ['='], start := 0, stop := 0 } := by
    rw [NameView.shift]
    simp [shiftLen]
  rw [hnew, Function.iterate_fixed hfix] at hk
  simp [NameView.isTerminal] at hk

/-- C2 (amended): for every name that contains no `=` character, shifting from
any in-range cursor preserves `start ≤ stop ≤ length` and is monotone in both
endpoints, repeated shifts from a fresh cursor reach the terminal state within
`length + 1` steps, and the `keys()` and `prefixes()` sequences have length at
most the length of the name.  (The un-amended claim fails for names containing
`=`: see the counterexample for the name `"="`.) -/
theorem shift_invariants_and_termination (name : Name) (hne : '=' ∉ name) :
    (∀ v : NameView, v.name = name → v.start ≤ v.stop → v.stop ≤ name.length →
      v.start ≤ (v.shift).start ∧ v.stop ≤ (v.shift).stop ∧
      (v.shift).start ≤ (v.shift).stop ∧ (v.shift).stop ≤ name.length) ∧
    (∃ n, n ≤ name.length + 1 ∧
      (NameView.shift^[n] { name := name, start := 0, stop := 0 }).isTerminal = true) ∧
    (Name.keys name).length ≤ name.length ∧
    (Name.prefixes name).length ≤ name.length := by
  have hfresh : ∀ {α : Type} (f : NameView → α),
      (viewIter f (name.length + 1) (NameView.new name)).length ≤ name.length := by
    intro α f
    have hnew : (NameView.new name).name = name := rfl
    have hstart : (NameView.new name).start = 0 := rfl
    have hstop : (NameView.new name).stop = shiftLen name := by
      show 0 + shiftLen (name.drop 0) = _
      simp
    have hlen : (NameView.new name).stop ≤ name.length := by
      rw [hstop]; exact shiftLen_le name
    have hd : (NameView.new name).start < (NameView.new name).stop ∨
        (NameView.new name).start = name.length := by
      by_cases hnil : name = []
      · right
        rw [hstart, hnil]
        rfl
      · left
        rw [hstart, hstop]
        obtain ⟨c, rest, hcr⟩ := List.exists_cons_of_ne_nil hnil
        rw [hcr]
        exact shiftLen_pos c rest
          (fun h => hne (by rw [hcr, h]; exact List.mem_cons_self _ _))
    have := viewIter_length_le f name hne (name.length + 1) (NameView.new name)
      hnew (by rw [hstart]; exact Nat.zero_le _) hlen hd
    rw [hstart] at this
    simpa using this
  refine ⟨fun v hn hss hsl => ?_, ?_, hfresh _, hfresh _⟩
  · have := shift_invariant v hss (by rw [hn]; exact hsl)
    rw [hn] at this
    exact this
  · exact ⟨name.length + 1, Nat.le_refl _,
      terminal_reached name hne name.length
        { name := name, start := 0, stop := 0 } rfl (Nat.zero_le _) (Nat.le_refl _)⟩

/-- Witness for the amended C2 at the concrete name `"a.b"`. -/
theorem shift_invariants_and_termination_witness :
    '=' ∉ ("a.b".data) ∧
    ((∀ v : NameView, v.name = "a.b".data → v.start ≤ v.stop →
        v.stop ≤ ("a.b".data).length →
        v.start ≤ (v.shift).start ∧ v.stop ≤ (v.shift).stop ∧
        (v.shift).start ≤ (v.shift).stop ∧ (v.shift).stop ≤ ("a.b".data).length) ∧
      (∃ n, n ≤ ("a.b".data).length + 1 ∧
        (NameView.shift^[n]
          { name := "a.b".data, start := 0, stop := 0 }).isTerminal = true) ∧
      (Name.keys ("a.b".data)).length ≤ ("a.b".data).length ∧
      (Name.prefixes ("a.b".data)).length ≤ ("a.b".data).length) :=
  ⟨by decide, shift_invariants_and_termination ("a.b".data) (by decide)⟩

/-- C3: the sequence adapter groups consecutive pushes by the first path key:
finalizing a running sub-context appends its success to `items` or its errors
to `errors`; a push whose first key fails to match the remembered one (equal
present keys) finalizes the running sub-context and starts a fresh one seeded
with the shifted field; a matching push extends the running sub-context in
place; and for the concrete pushes with keys `0`, `1`, `0` the third push opens
a new third element instead of merging back into the first. -/
theorem vec_grouping :
    (∀ (T : Type) (F : FormImpl T) (c : VecContext T F) (cur : F.Ctx),
      c.current = some cur →
        (∃ v, F.finalize cur = .ok v ∧
          vecShift F c = { c with current := none, items := c.items ++ [v] }) ∨
        (∃ e, F.finalize cur = .error e ∧
          vecShift F c = { c with current := none, errors := c.errors ++ e })) ∧
    (∀ (T : Type) (F : FormImpl T) (c : VecContext T F) (field : ValueField),
      keysMatch c.lastKey field.name.key = false →
        vecPushValue F c field =
          { vecShift F c with
              lastKey := field.name.key,
              current := some (F.pushValue (F.init c.opts) field.shift) }) ∧
    (∀ (T : Type) (F : FormImpl T) (c : VecContext T F) (field : ValueField)
      (cur : F.Ctx),
      keysMatch c.lastKey field.name.key = true → c.current = some cur →
        vecPushValue F c field =
          { c with
              lastKey := field.name.key,
              current := some (F.pushValue cur field.shift) }) ∧
    vecFinalize collectF
        (vecPushValue collectF
          (vecPushValue collectF
            (vecPushValue collectF (vecInit collectF Options.Lenient)
              (vf "[0].a" "1"))
            (vf "[1].b" "2"))
          (vf "[0].c" "3")) =
      .ok [[(vf "[0].a" "1").shift], [(vf "[1].b" "2").shift], [(vf "[0].c" "3").shift]] := by
  refine ⟨?_, ?_, ?_, ?_⟩
  · intro T F c cur hc
    cases hf : F.finalize cur with
    | ok v =>
      refine Or.inl ⟨v, rfl, ?_⟩
      simp only [vecShift, hc, hf]
    | error e =>
      refine Or.inr ⟨e, rfl, ?_⟩
      simp only [vecShift, hc, hf]
  · intro T F c field h
    unfold vecPushValue vecContext
    rw [h]
    rfl
  · intro T F c field cur h hc
    simp [vecPushValue, vecContext, h, hc]
  · rfl

/-- Witness for the conditional parts of C3 at a concrete mismatching and a
concrete matching push. -/
theorem vec_grouping_witness :
    (vecPushValue collectF (vecInit collectF Options.Lenient) (vf "[0].a" "1") =
      { vecShift collectF (vecInit collectF Options.Lenient) with
          lastKey := (vf "[0].a" "1").name.key,
          current := some (collectF.pushValue (collectF.init Options.Lenient)
            (vf "[0].a" "1").shift) }) ∧
    (vecPushValue collectF
        (vecPushValue collectF (vecInit collectF Options.Lenient) (vf "[0].a" "1"))
        (vf "[0].c" "3") =
      { vecPushValue collectF (vecInit collectF Options.Lenient) (vf "[0].a" "1") with
          lastKey := (vf "[0].c" "3").name.key,
          current := some (collectF.pushValue [(vf "[0].a" "1").shift]
            (vf "[0].c" "3").shift) }) :=
  ⟨vec_grouping.2.1 (List ValueField) collectF (vecInit collectF Options.Lenient)
      (vf "[0].a" "1") rfl,
    vec_grouping.2.2.1 (List ValueField) collectF
      (vecPushValue collectF (vecInit collectF Options.Lenient) (vf "[0].a" "1"))
      (vf "[0].c" "3") [(vf "[0].a" "1").shift] rfl rfl⟩

/-- C4: when the first of two value pushes onto a scalar leaf parses
successfully, finalizing under strict options fails with a `Duplicate` error
(carrying the field's name and first value), while finalizing under lenient
options succeeds with the first value and no error. -/
theorem leaf_duplicate_policy {T : Type} (L : FieldImpl T) (f1 f2 : ValueField)
    (v : T) (h : L.fromValue f1 = .ok v) :
    leafFinalize L
        (leafPushValue L (leafPushValue L (leafInit Options.Strict) f1) f2) =
      .error [{ name := some f1.name.asName, value := some f1.value,
                kind := .duplicate }] ∧
    leafFinalize L
        (leafPushValue L (leafPushValue L (leafInit Options.Lenient) f1) f2) =
      .ok v := by
  constructor <;>
    simp [leafInit, leafPushValue, leafPush, leafFinalize, finishErrors,
      setName, setValue, Options.Strict, Options.Lenient, h]

/-- Witness for C4 at the concrete leaf that accepts its value verbatim and the
duplicate input `{a=1, a=2}`. -/
theorem leaf_duplicate_policy_witness :
    strLeaf.fromValue (vf "a" "1") = .ok ("1".data) ∧
    (leafFinalize strLeaf
        (leafPushValue strLeaf
          (leafPushValue strLeaf (leafInit Options.Strict) (vf "a" "1"))
          (vf "a" "2")) =
      .error [{ name := some (vf "a" "1").name.asName,
                value := some (vf "a" "1").value, kind := .duplicate }] ∧
    leafFinalize strLeaf
        (leafPushValue strLeaf
          (leafPushValue strLeaf (leafInit Options.Lenient) (vf "a" "1"))
          (vf "a" "2")) =
      .ok ("1".data)) :=
  ⟨rfl, leaf_duplicate_policy strLeaf (vf "a" "1") (vf "a" "2") ("1".data) rfl⟩

/-- C5 counterexample: under lenient options, after a first push fails with a
`ValidationFailed` error (recorded as the pending error), a second push that
would fail with another `ValidationFailed` error does not overwrite it: the
leaf's recorded result keeps the first error (value `"1"`), and the second push
leaves the recorded result untouched. -/
theorem leaf_lenient_no_overwrite_cex :
    leafFinalize valErrLeaf
        (leafPushValue valErrLeaf
          (leafPushValue valErrLeaf (leafInit Options.Lenient) (vf "a" "1"))
          (vf "a" "2")) =
      .error [{ name := some ("a".data), value := some ("1".data),
                kind := .validationFailed }] ∧
    (leafPushValue valErrLeaf
        (leafPushValue valErrLeaf (leafInit Options.Lenient) (vf "a" "1"))
        (vf "a" "2")).value =
      (leafPushValue valErrLeaf (leafInit Options.Lenient) (vf "a" "1")).value :=
  ⟨rfl, rfl⟩

/-- C5 (amended): under lenient options, while the leaf has no recorded result,
a push failing with a last-kind-`Unexpected` error is silently swallowed
(leaving the pending value/error unchanged), and a push failing with any other
latest kind is recorded and becomes the leaf's result; once any result (value
or error) is recorded, every later push only bumps the push counter and is
otherwise ignored — it never overwrites the pending result. -/
theorem leaf_lenient_policy {T : Type} (L : FieldImpl T) (c : FromFieldContext T)
    (f : ValueField) (hl : c.opts.strict = false) :
    (∀ es, c.value = none → L.fromValue f = .error es →
      isUnexpectedLast es = true → (leafPushValue L c f).value = none) ∧
    (∀ es, c.value = none → L.fromValue f = .error es →
      isUnexpectedLast es = false →
      (leafPushValue L c f).value = some (.error es)) ∧
    (∀ r, c.value = some r →
      leafPushValue L c f = { c with pushes := c.pushes + 1 }) := by
  refine ⟨?_, ?_, ?_⟩
  · intro es h0 he hu
    simp [leafPushValue, leafPush, h0, he, hu, hl]
  · intro es h0 he hu
    simp [leafPushValue, leafPush, h0, he, hu, hl]
  · intro r hr
    simp [leafPushValue, hr]

/-- Witness for the amended C5: a lenient leaf that always fails with
`Unexpected` swallows the push, leaving no recorded result. -/
theorem leaf_lenient_policy_witness :
    (leafPushValue unexpLeaf (leafInit Options.Lenient) (vf "a" "x")).value = none :=
  (leaf_lenient_policy unexpLeaf (leafInit Options.Lenient) (vf "a" "x") rfl).1
    [{ name := none, value := some ("x".data), kind := .unexpected }] rfl rfl rfl

/-- C6: the optional wrapper's `finalize` always returns `Ok`, wrapping the
inner success as `some` and an inner failure as `none` (discarding the inner
errors), and the fallible wrapper's `finalize` always returns `Ok`, carrying
the inner result — success or error set — as a value, never forwarding the
failure to the caller. -/
theorem option_result_finalize_total {T : Type} (F : FormImpl T) (c : F.Ctx) :
    optionFinalize F c = .ok (F.finalize c).toOption ∧
    resultFinalize F c = .ok (F.finalize c) := by
  unfold optionFinalize resultFinalize
  cases F.finalize c <;> simp [Except.toOption]

/-- C7: `Name` equality holds exactly when the segmented key sequences are
equal, the hash state is computed from the key sequence alone (names with equal
key sequences hash identically under any hasher), and in particular the names
`"a[b]"` and `"a.b"` are equal. -/
theorem name_eq_and_hash_by_keys :
    (∀ s₁ s₂ : Name, nameEq s₁ s₂ ↔ Name.keys s₁ = Name.keys s₂) ∧
    (∀ (H : Type) (step : H → Key → H) (st : H) (s₁ s₂ : Name),
      Name.keys s₁ = Name.keys s₂ → nameHash step st s₁ = nameHash step st s₂) ∧
    nameEq ("a[b]".data) ("a.b".data) := by
  refine ⟨fun s₁ s₂ => Iff.rfl, fun H step st s₁ s₂ h => ?_, ?_⟩
  · unfold nameHash
    rw [h]
  · show Name.keys ("a[b]".data) = Name.keys ("a.b".data)
    rfl

/-- Witness for the hash-congruence part of C7 at the names `"a[b]"`/`"a.b"`
with a concrete (key-collecting) hasher. -/
theorem name_eq_and_hash_by_keys_witness :
    nameHash (fun (h : List Key) k => h ++ [k]) [] ("a[b]".data) =
      nameHash (fun h k => h ++ [k]) [] ("a.b".data) :=
  name_eq_and_hash_by_keys.2.1 (List Key) (fun h k => h ++ [k]) []
    ("a[b]".data) ("a.b".data) rfl

/-- C8: `Context::errors(n)` yields exactly the errors stored under some prefix
of `n` — membership holds iff some prefix of `n` looks up (by key-sequence
equivalence) an error list containing the error — `has_error(n)` holds iff that
list is non-empty, and concretely an error attached under `"a.b"` is returned
for the queries `"a.b"`, `"a.b.c"` and `"a.b[0]"` but not for `"a"`. -/
theorem context_errors_prefix_lookup :
    (∀ (c : FormCtx) (n : Name) (e : Error),
      e ∈ c.errorsFor n ↔
        ∃ p ∈ Name.prefixes n, ∃ es, lookupErrors c.errors p = some es ∧ e ∈ es) ∧
    (∀ (c : FormCtx) (n : Name), c.hasError n = true ↔ c.errorsFor n ≠ []) ∧
    (abCtx.errorsFor ("a.b".data) = [abError] ∧
      abCtx.errorsFor ("a.b.c".data) = [abError] ∧
      abCtx.errorsFor ("a.b[0]".data) = [abError] ∧
      abCtx.errorsFor ("a".data) = [] ∧
      abCtx.hasError ("a.b.c".data) = true ∧
      abCtx.hasError ("a".data) = false) := by
  refine ⟨?_, ?_, rfl, rfl, rfl, rfl, rfl, rfl⟩
  · intro c n e
    unfold FormCtx.errorsFor
    constructor
    · intro h
      rw [List.mem_flatten] at h
      obtain ⟨es, hes, he⟩ := h
      rw [List.mem_filterMap] at hes
      obtain ⟨p, hp, hg⟩ := hes
      exact ⟨p, hp, es, hg, he⟩
    · rintro ⟨p, hp, es, hg, he⟩
      rw [List.mem_flatten]
      exact ⟨es, List.mem_filterMap.mpr ⟨p, hp, hg⟩, he⟩
  · intro c n
    unfold FormCtx.hasError
    cases h : c.errorsFor n <;> simp [h]

/-- C9: `Form<T>::from_data` forwards exactly when the request has no content
type or a content type that is neither url-encoded form nor multipart
form-data, and for a multipart form-data content type lacking a boundary
parameter the outcome is a failure of the bind attempt, never a forward —
independently of the body's read/parse outcomes. -/
theorem form_from_data_forward_failure :
    (∀ (α : Type) (ct : Option ContentType) (sR mR : Except (List Error) α),
      formFromData ct sR mR = .forward ↔
        (ct = none ∨ ∃ c, ct = some c ∧ c.isForm = false ∧ c.isFormData = false)) ∧
    (∀ (α : Type) (c : ContentType) (sR mR : Except (List Error) α),
      c.isForm = false → c.isFormData = true → c.boundary = none →
      formFromData (some c) sR mR = .failure [noBoundaryError]) := by
  constructor
  · intro α ct sR mR
    cases ct with
    | none => simp [formFromData]
    | some c =>
      simp only [formFromData]
      by_cases hf : c.isForm = true
      · rw [if_pos hf]
        cases sR <;> simp [hf]
      · rw [Bool.not_eq_true] at hf
        rw [if_neg (by simp [hf])]
        by_cases hfd : c.isFormData = true
        · rw [if_pos hfd]
          cases hb : c.boundary with
          | none => simp [hfd]
          | some b => cases mR <;> simp [hfd]
        · rw [Bool.not_eq_true] at hfd
          rw [if_neg (by simp [hfd])]
          simp [hf, hfd]
  · intro α c sR mR h1 h2 h3
    simp [formFromData, h1, h2, h3]

/-- Witness for C9 at the concrete multipart content type without boundary. -/
theorem form_from_data_forward_failure_witness :
    formFromData (some { isForm := false, isFormData := true, boundary := none })
        (Except.ok Unit.unit) (Except.ok Unit.unit) =
      .failure [noBoundaryError] :=
  form_from_data_forward_failure.2 Unit
    { isForm := false, isFormData := true, boundary := none }
    (Except.ok Unit.unit) (Except.ok Unit.unit) rfl rfl rfl

/-- C10: `Buffer::push_split(s, len)` (for `len ≤ s.length`) hands back exactly
the two slices `s[..len]` and `s[len..]` of the single string it appended;
consequently `Buffer::push_two(a, b)` hands back slices whose contents are
exactly `a` and `b`; `push_one` returns precisely the pushed contents; and each
push appends exactly one string, leaving every previously stored string
unchanged. -/
theorem buffer_push_properties (buf : Buffer) (s : List Char) (len : Nat)
    (a b : List Char) (h : len ≤ s.length) :
    (Buffer.push_split buf s len).2 = (s.take len, s.drop len) ∧
    (Buffer.push_split buf s len).1 = buf ++ [s] ∧
    (Buffer.push_two buf a b).2 = (a, b) ∧
    (Buffer.push_two buf a b).1 = buf ++ [a ++ b] ∧
    (Buffer.push_one buf s).2 = s ∧
    (∀ i, i < buf.length → (buf ++ [s])[i]? = buf[i]?) ∧
    (Buffer.push_split buf s len).2.1.length = len := by
  refine ⟨rfl, rfl, ?_, rfl, rfl, ?_, ?_⟩
  · unfold Buffer.push_two Buffer.push_split Buffer.push_one
    simp
  · intro i hi
    rw [List.getElem?_append_left hi]
  · show (s.take len).length = len
    rw [List.length_take]
    exact Nat.min_eq_left h

/-- Witness for C10 at a concrete buffer and split point. -/
theorem buffer_push_properties_witness :
    2 ≤ ("abcd".data).length ∧
    (Buffer.push_two [] ("ab".data) ("cd".data)).2 = ("ab".data, "cd".data) :=
  ⟨by decide,
    (buffer_push_properties [] ("abcd".data) 2 ("ab".data) ("cd".data)
      (by decide)).2.2.1⟩

end Rocket
